import Mathlib

/-!
Shallow embedding of the likelihood-production core of the
`replay_identification` repository, covering:

* `core.py` — the `scaled_likelihood` numerical stabilizer;
* `multiunit_likelihood_track_graph.py` — the track-graph distance solver
  (`_setup_distance`, `get_distance2`, `batch`, `batch_distance`,
  `convert_linear_position_to_track_distances`) and the multiunit KDE
  (`numba_product`, `get_kde`).

Machine floats are embedded as real numbers (`scaled_likelihood`,
`numba_product`, `get_kde`) or as rationals where only ordering and
exact arithmetic matter (linear positions and graph distances), and
Python exceptions are embedded as an explicit `Except` error channel.
-/

namespace Replay

/-- Vocabulary of failure modes relevant to the spec and the code.
`indexError`, `keyError` and `zeroDivisionError` model the Python
exceptions the source can actually raise (out-of-bounds positional
indexing, a missing dictionary key, and float division by zero — numba
compiles `numba_product` with its default `error_model='python'`, which
raises on a zero divisor just like CPython).  `configurationError` and
`graphTopologyError` are the error classes named by the spec; the
source never defines or raises them, and they are included so that
claims about them can be stated. -/
inductive PyError where
  | indexError
  | keyError
  | zeroDivisionError
  | configurationError
  | graphTopologyError
deriving DecidableEq

instance {ε α : Type} [DecidableEq ε] [DecidableEq α] : DecidableEq (Except ε α) :=
  fun a b =>
    match a, b with
    | .ok x, .ok y =>
      match decEq x y with
      | isTrue h => isTrue (h ▸ rfl)
      | isFalse h => isFalse (fun hh => h (Except.ok.inj hh))
    | .error x, .error y =>
      match decEq x y with
      | isTrue h => isTrue (h ▸ rfl)
      | isFalse h => isFalse (fun hh => h (Except.error.inj hh))
    | .ok _, .error _ => isFalse (fun hh => Except.noConfusion hh)
    | .error _, .ok _ => isFalse (fun hh => Except.noConfusion hh)

/-- Fallible elementwise map: models a Python loop or comprehension that
applies a possibly-raising operation to each element, aborting the whole
computation at the first exception. -/
def exceptMap {α β : Type} (f : α → Except PyError β) : List α → Except PyError (List β)
  | [] => .ok []
  | x :: xs =>
    match f x with
    | .error e => .error e
    | .ok y =>
      match exceptMap f xs with
      | .error e => .error e
      | .ok ys => .ok (y :: ys)

/-- Integer indexing into an array with Python/numpy semantics: a
non-negative index must be below the length, a negative index wraps once
(index `i` reads element `length + i`), anything else raises
`IndexError`.  Models both numpy fancy indexing of a 1-D array and
pandas `.iloc` positional row lookup. -/
def npIndex {α : Type} (xs : List α) (i : ℤ) : Except PyError α :=
  if 0 ≤ i then
    match xs.get? i.toNat with
    | some v => .ok v
    | none => .error .indexError
  else if 0 ≤ i + xs.length then
    match xs.get? (i + xs.length).toNat with
    | some v => .ok v
    | none => .error .indexError
  else .error .indexError

/-- Model of `np.abs` on a rational scalar. -/
def npAbs (x : ℚ) : ℚ := if x < 0 then -x else x

/-- Model of `np.searchsorted(xs, q)` with the default `side='left'` on a
sorted array: the number of entries strictly below the query, i.e. the
insertion index of `q` keeping `xs` sorted. -/
def searchsortedLeft (xs : List ℚ) (q : ℚ) : ℕ :=
  xs.countP (fun x => decide (x < q))

/-- Model of `np.argmin(np.abs(q - xs))`: index of the first entry of
`xs` minimising the absolute difference to `q` (auxiliary recursion
carrying the running best index and best value). -/
def argminAbsAux (q : ℚ) : List ℚ → ℕ → ℕ → ℚ → ℕ
  | [], _, besti, _ => besti
  | x :: rest, i, besti, bestv =>
    if npAbs (q - x) < bestv then argminAbsAux q rest (i + 1) i (npAbs (q - x))
    else argminAbsAux q rest (i + 1) besti bestv

/-- Index of the first entry of `xs` closest to `q` in absolute
difference (`np.argmin` semantics; the empty case cannot occur for a
non-empty node table and returns the junk value 0). -/
def argminAbs (xs : List ℚ) (q : ℚ) : ℕ :=
  match xs with
  | [] => 0
  | x :: rest => argminAbsAux q rest 1 0 (npAbs (q - x))

/-- One row of the sorted node index table `nodes_df`: node id, edge
segment id, bin-edge flag and linear position. -/
structure NodesRow where
  node_id : ℕ
  edge_id : ℕ
  is_bin_edge : Bool
  linear_position : ℚ
deriving DecidableEq

/-- Per-position output of `_setup_distance`: bracketing node ids and
residual distances. -/
structure SetupRow where
  left_node_id : ℕ
  right_node_id : ℕ
  left_dist : ℚ
  right_dist : ℚ
deriving DecidableEq

instance : Inhabited SetupRow := ⟨⟨0, 0, 0, 0⟩⟩

/-- The `place_bin_center_to_node_id` array of `_setup_distance`: node
ids of the rows that are not bin edges, sorted by linear position. -/
def binCenters (table : List NodesRow) : List ℕ :=
  ((table.filter (fun r => !r.is_bin_edge)).mergeSort
    (fun a b => decide (a.linear_position ≤ b.linear_position))).map (fun r => r.node_id)

/-- Per-position body of `_setup_distance` (the source is vectorised
over the position array; each row is independent, so it is embedded
pointwise).  `bin_ind` is the searchsorted insertion index; the left and
right brackets are the rows at `bin_ind − 1` and `bin_ind` (pandas
`.iloc`, raising when `bin_ind` equals the table length); when the two
brackets do not share an edge id both indices collapse to the position
of the nearest node.  The source computes `left_dist` and `right_dist`
from the same `left_node_ind` (lines 68–71), so both residuals below use
the left bracket's linear position. -/
def setupOne (table : List NodesRow) (q : ℚ) : Except PyError SetupRow := do
  let values := table.map (fun r => r.linear_position)
  let bin_ind : ℤ := (searchsortedLeft values q : ℕ)
  let rowL ← npIndex table (bin_ind - 1)
  let rowR ← npIndex table bin_ind
  let is_same_edge : Bool := decide (rowL.edge_id = rowR.edge_id)
  let li : ℤ := if is_same_edge then bin_ind - 1 else (argminAbs values q : ℕ)
  let ri : ℤ := if is_same_edge then bin_ind else (argminAbs values q : ℕ)
  let lid ← npIndex (table.map (fun r => r.node_id)) li
  let rid ← npIndex (table.map (fun r => r.node_id)) ri
  let vL ← npIndex values li
  pure ⟨lid, rid, npAbs (vL - q), npAbs (vL - q)⟩

/-- Model of `_setup_distance(linear_position, nodes_df)`: bracket data
for every query position plus the bin-center node id array. -/
def setup_distance (qs : List ℚ) (table : List NodesRow) :
    Except PyError (List SetupRow × List ℕ) := do
  let rows ← exceptMap (setupOne table) qs
  pure (rows, binCenters table)

/-- Identifier of a node of the working graph: either one of the
original integer node ids of the track graph, or the transient string
node `'a'` that `get_distance2` inserts (a Python string can never equal
an integer node id, hence a separate constructor). -/
inductive NodeId where
  | node (n : ℕ)
  | anchor
deriving DecidableEq

/-- Weighted undirected working graph, as manipulated by
`get_distance2`: a node list and an edge list carrying the `distance`
attribute. -/
structure WorkGraph where
  nodes : List NodeId
  edges : List (NodeId × NodeId × ℚ)
deriving DecidableEq

/-- The caller-facing track graph, whose node ids are plain integers. -/
structure TrackGraph where
  nodes : List ℕ
  edges : List (ℕ × ℕ × ℚ)
deriving DecidableEq

/-- View of a track graph as a working graph (networkx passes the same
object; the separate type records that the original graph cannot
contain the string node `'a'`). -/
def injectGraph (tg : TrackGraph) : WorkGraph :=
  ⟨tg.nodes.map NodeId.node,
   tg.edges.map (fun e => (NodeId.node e.1, NodeId.node e.2.1, e.2.2))⟩

/-- Does the undirected edge `e` join `u` and `v`? -/
def edgeMatches (e : NodeId × NodeId × ℚ) (u v : NodeId) : Bool :=
  (decide (e.1 = u) && decide (e.2.1 = v)) || (decide (e.1 = v) && decide (e.2.1 = u))

/-- Model of `nx.add_path(G, [u, v], distance=w)`: add `u` and `v` to
the node set if absent, then either update the `distance` attribute of
an existing `u`–`v` edge or append a new one. -/
def addPathEdge (g : WorkGraph) (u v : NodeId) (w : ℚ) : WorkGraph :=
  let ns1 := if u ∈ g.nodes then g.nodes else g.nodes ++ [u]
  let ns2 := if v ∈ ns1 then ns1 else ns1 ++ [v]
  let es :=
    if g.edges.any (fun e => edgeMatches e u v) then
      g.edges.map (fun e => if edgeMatches e u v then (e.1, e.2.1, w) else e)
    else g.edges ++ [(u, v, w)]
  ⟨ns2, es⟩

/-- Model of `G.remove_node(u)`: drop the node and every incident
edge. -/
def removeNode (g : WorkGraph) (u : NodeId) : WorkGraph :=
  ⟨g.nodes.filter (fun x => !decide (x = u)),
   g.edges.filter (fun e => !decide (e.1 = u) && !decide (e.2.1 = u))⟩

/-- Lookup in the association list representing the shortest-path-length
dictionary. -/
def lookupD (d : List (NodeId × ℚ)) (u : NodeId) : Option ℚ :=
  (d.find? (fun p => decide (p.1 = u))).map (fun p => p.2)

/-- One relaxation of the directed arc `u → v` of weight `w` over a
tentative-distance table. -/
def relaxEdge (d : List (NodeId × ℚ)) (u v : NodeId) (w : ℚ) : List (NodeId × ℚ) :=
  match lookupD d u with
  | none => d
  | some du =>
    match lookupD d v with
    | none => d ++ [(v, du + w)]
    | some dv =>
      if du + w < dv then d.map (fun p => if p.1 = v then (p.1, du + w) else p) else d

/-- Relax every undirected edge of `es` in both directions. -/
def relaxAll (es : List (NodeId × NodeId × ℚ)) (d : List (NodeId × ℚ)) :
    List (NodeId × ℚ) :=
  es.foldl (fun d e => relaxEdge (relaxEdge d e.1 e.2.1 e.2.2) e.2.1 e.1 e.2.2) d

/-- Model of `nx.single_source_dijkstra_path_length(G, source, weight="distance")`:
the dictionary of shortest-path lengths from `source` to every reachable
node, reachable nodes only (a key is absent exactly when the node is
unreachable).  Computed by Bellman–Ford relaxation iterated `|nodes|`
times, which yields the same distance dictionary as Dijkstra for the
non-negative weights used here. -/
def shortestPaths (g : WorkGraph) (src : NodeId) : List (NodeId × ℚ) :=
  (List.range g.nodes.length).foldl (fun d _ => relaxAll g.edges d) [(src, 0)]

/-- Dictionary access `dist[id]`: a missing key raises `KeyError`. -/
def distLookup (d : List (NodeId × ℚ)) (u : NodeId) : Except PyError ℚ :=
  match lookupD d u with
  | some v => .ok v
  | none => .error .keyError

/-- Model of `get_distance2`: insert the transient anchor `'a'` with an
edge to the left bracket of weight `left_dist` and to the right bracket
of weight `right_dist`, take single-source shortest path lengths from
the anchor, remove the anchor, then read the distance dictionary at
every bin-center node id (raising `KeyError` when a key is absent).
Returns the distance row together with the graph as the call leaves
it. -/
def get_distance2 (g : WorkGraph) (left_node_id right_node_id : NodeId)
    (left_dist right_dist : ℚ) (place_bin_center_to_node_id : List ℕ) :
    Except PyError (List ℚ) × WorkGraph :=
  let g1 := addPathEdge g left_node_id .anchor left_dist
  let g2 := addPathEdge g1 .anchor right_node_id right_dist
  let dist := shortestPaths g2 .anchor
  let g3 := removeNode g2 .anchor
  (exceptMap (fun id => distLookup dist (NodeId.node id)) place_bin_center_to_node_id, g3)

/-- Model of `batch_distance`: run `get_distance2` for each observation
of the batch sequentially on one working copy of the graph (the copy is
threaded through the calls, since `get_distance2` mutates and restores
it), stacking the rows; a raise aborts the batch.  Returns the stacked
rows together with the final state of the working copy. -/
def batch_distance (g : WorkGraph) (obs : List SetupRow) (ids : List ℕ) :
    Except PyError (List (List ℚ)) × WorkGraph :=
  match obs with
  | [] => (.ok [], g)
  | o :: rest =>
    let (r, g1) := get_distance2 g (.node o.left_node_id) (.node o.right_node_id)
      o.left_dist o.right_dist ids
    match r with
    | .error e => (.error e, g1)
    | .ok row =>
      let (rs, g2) := batch_distance g1 rest ids
      match rs with
      | .error e => (.error e, g2)
      | .ok rows => (.ok (row :: rows), g2)

/-- Loop of the `batch` generator (`for ind in range(0, n_samples,
batch_size): yield range(ind, min(ind + batch_size, n_samples))`),
with explicit fuel; `n_samples` units of fuel suffice for any positive
batch size. -/
def batchGo (n b : ℕ) : ℕ → ℕ → List (List ℕ)
  | 0, _ => []
  | fuel + 1, ind =>
    if ind < n then
      List.range' ind (min (ind + b) n - ind) :: batchGo n b fuel (ind + b)
    else []

/-- Model of the `batch(n_samples, batch_size)` generator: the list of
index ranges it yields. -/
def batch (n_samples batch_size : ℕ) : List (List ℕ) :=
  batchGo n_samples batch_size n_samples 0

/-- Model of `convert_linear_position_to_track_distances`,
parameterised by the batch size: set up brackets, process the
observation index ranges batch by batch (each batch on its own copy of
the track graph), and concatenate the per-batch row blocks in
submission order. -/
def convertB (batch_size : ℕ) (qs : List ℚ) (tg : TrackGraph)
    (table : List NodesRow) : Except PyError (List (List ℚ)) := do
  let (rows, ids) ← setup_distance qs table
  let chunks ← exceptMap
    (fun idxs => (batch_distance (injectGraph tg)
      (idxs.map (fun i => rows.getD i default)) ids).1)
    (batch rows.length batch_size)
  pure chunks.flatten

/-- Model of `convert_linear_position_to_track_distances` with the
source's fixed batch size of 10,000. -/
def convert_linear_position_to_track_distances (qs : List ℚ) (tg : TrackGraph)
    (table : List NodesRow) : Except PyError (List (List ℚ)) :=
  convertB 10000 qs tg table

/-- The module-level constant `SQRT_2PI = np.sqrt(2.0 * np.pi)`. -/
noncomputable def SQRT_2PI : ℝ := Real.sqrt (2 * Real.pi)

/-- Model of `numba_product(eval_point, samples, bandwidths)`: for every
training row, the product over feature channels of
`exp(-0.5*((eval_point[k]-sample[k])/bandwidth[k])**2) / (bandwidth[k]*SQRT_2PI) / bandwidth[k]`
(the source divides by the bandwidth a second time after the Gaussian
normalisation).  The channel loop runs over the row width, which the
documented shapes make equal to the lengths of `eval_point` and
`bandwidths`; the zip aligns the three. -/
noncomputable def numba_product (eval_point : List ℝ) (samples : List (List ℝ))
    (bandwidths : List ℝ) : List ℝ :=
  samples.map (fun row =>
    ((eval_point.zip (row.zip bandwidths)).map
      (fun p => Real.exp (-(0.5) * ((p.1 - p.2.1) / p.2.2) ^ 2) / (p.2.2 * SQRT_2PI) / p.2.2)).prod)

/-- Vector–matrix product `v @ M` of numpy: entry `j` is the dot product
of `v` with column `j` of `M`. -/
noncomputable def vecMat (v : List ℝ) (m : List (List ℝ)) : List ℝ :=
  m.transpose.map (fun col => ((v.zip col).map (fun p => p.1 * p.2)).sum)

/-- Masked row assignment `kde[ind, is_track_interior] = vals` starting
from a zero row: interior positions take successive entries of `vals`,
exterior positions stay zero.  (The documented shapes make the interior
count equal to the length of `vals`.) -/
def scatterInterior : List Bool → List ℝ → List ℝ
  | [], _ => []
  | true :: m, v :: vs => v :: scatterInterior m vs
  | true :: m, [] => 0 :: scatterInterior m []
  | false :: m, vs => 0 :: scatterInterior m vs

/-- Model of `get_kde`: for every test observation, project the feature
product kernel against the training sample onto the spatial bins through
`gaussian_track_distances`, writing the result into the track-interior
columns of an otherwise zero row. -/
noncomputable def get_kde (test_multiunit train_multiunit : List (List ℝ))
    (is_track_interior : List Bool) (bandwidths : List ℝ)
    (gaussian_track_distances : List (List ℝ)) : List (List ℝ) :=
  test_multiunit.map (fun t =>
    scatterInterior is_track_interior
      (vecMat (numba_product t train_multiunit bandwidths) gaussian_track_distances))

/-- One per-channel kernel factor of `numba_product` together with its
exception behaviour: numba compiles the kernel with its default
`error_model='python'`, under which the float division
`(eval_point[k] - sample) / bandwidth` raises `ZeroDivisionError` when
the bandwidth is zero; otherwise the factor
`exp(-0.5*((e-s)/b)**2) / (b*SQRT_2PI) / b` is returned. -/
noncomputable def kernelChannel (e s b : ℝ) : Except PyError ℝ :=
  if b = 0 then .error .zeroDivisionError
  else .ok (Real.exp (-(0.5) * ((e - s) / b) ^ 2) / (b * SQRT_2PI) / b)

/-- Model of a call to `numba_product` with its exception channel: the
double loop over training rows and feature channels multiplies the
per-channel factors, and the whole call aborts with `ZeroDivisionError`
as soon as a zero-bandwidth channel is evaluated (no validation precedes
the division); with all bandwidths nonzero it returns the same product
kernel as `numba_product`. -/
noncomputable def numba_product_call (eval_point : List ℝ) (samples : List (List ℝ))
    (bandwidths : List ℝ) : Except PyError (List ℝ) :=
  exceptMap (fun row =>
    match exceptMap (fun p => kernelChannel p.1 p.2.1 p.2.2)
        (eval_point.zip (row.zip bandwidths)) with
    | .error e => .error e
    | .ok factors => .ok factors.prod) samples

/-- Model of `np.max` over a 1-D array (the source only applies it to
non-empty arrays; the empty case returns the junk value 0). -/
noncomputable def npMax : List ℝ → ℝ
  | [] => 0
  | x :: xs => xs.foldl max x

/-- Model of the function produced by the `scaled_likelihood` decorator
in `core.py`, applied to the array the wrapped function returned:
`np.exp(log_likelihood - np.max(log_likelihood))`. -/
noncomputable def scaled_likelihood (log_likelihood : List ℝ) : List ℝ :=
  log_likelihood.map (fun v => Real.exp (v - npMax log_likelihood))

/-- Node index table of the spec's end-to-end example: a single-edge
track with nodes 0, 1, 2 at linear positions 0, 5, 10, where node 1 is
the only bin center. -/
def table3 : List NodesRow :=
  [⟨0, 0, true, 0⟩, ⟨1, 0, false, 5⟩, ⟨2, 0, true, 10⟩]

/-- Track graph of the same example: edges 0–1 and 1–2 of length 5. -/
def tg3 : TrackGraph := ⟨[0, 1, 2], [(0, 1, 5), (1, 2, 5)]⟩

/-- Disconnected-configuration fixture: the bin-center node 2 is
referenced by the index table but has no edge in the graph. -/
def tgDisc : TrackGraph := ⟨[0, 1, 2], [(0, 1, 5)]⟩

/-- Index table matching `tgDisc`: nodes 0 and 1 bracket the low
positions, node 2 is the only bin center. -/
def tableDisc : List NodesRow :=
  [⟨0, 0, true, 0⟩, ⟨1, 0, true, 5⟩, ⟨2, 1, false, 20⟩]

@[simp]
theorem ok_bind {α β : Type} (a : α) (f : α → Except PyError β) :
    (Except.ok a >>= f) = f a := rfl

@[simp]
theorem error_bind {α β : Type} (e : PyError) (f : α → Except PyError β) :
    ((Except.error e : Except PyError α) >>= f) = .error e := rfl

theorem bind_ok {α β : Type} {e : Except PyError α} {f : α → Except PyError β}
    {b : β} (h : (e >>= f) = .ok b) : ∃ a, e = .ok a ∧ f a = .ok b := by
  cases e with
  | error e => simp at h
  | ok a => exact ⟨a, rfl, by simpa using h⟩

theorem setupOne_ok_dist_eq {table : List NodesRow} {q : ℚ} {r : SetupRow}
    (h : setupOne table q = .ok r) : r.left_dist = r.right_dist := by
  unfold setupOne at h
  obtain ⟨rowL, hL, h⟩ := bind_ok h
  obtain ⟨rowR, hR, h⟩ := bind_ok h
  obtain ⟨lid, hlid, h⟩ := bind_ok h
  obtain ⟨rid, hrid, h⟩ := bind_ok h
  obtain ⟨vL, hvL, h⟩ := bind_ok h
  cases h
  rfl

theorem exceptMap_ok_mem {α β : Type} {f : α → Except PyError β} :
    ∀ {xs : List α} {ys : List β}, exceptMap f xs = .ok ys →
      ∀ y ∈ ys, ∃ x ∈ xs, f x = .ok y := by
  intro xs
  induction xs with
  | nil =>
    intro ys h y hy
    cases h
    simp at hy
  | cons x xs ih =>
    intro ys h y hy
    unfold exceptMap at h
    cases hfx : f x with
    | error e => rw [hfx] at h; cases h
    | ok b =>
      rw [hfx] at h
      cases hrest : exceptMap f xs with
      | error e => rw [hrest] at h; cases h
      | ok bs =>
        rw [hrest] at h
        cases h
        rcases List.mem_cons.1 hy with hy | hy
        · exact ⟨x, List.mem_cons_self x xs, hy ▸ hfx⟩
        · obtain ⟨x', hx', hfx'⟩ := ih hrest y hy
          exact ⟨x', List.mem_cons_of_mem x hx', hfx'⟩

/-- Claim C10: in both the same-edge branch and the nearest-node
fallback branch, `_setup_distance` computes `left_dist` and `right_dist`
from the same `left_node_ind` (source lines 68–71), so the two residual
distance arrays it returns are elementwise equal. -/
theorem left_dist_eq_right_dist {qs : List ℚ} {table : List NodesRow}
    {rows : List SetupRow} {ids : List ℕ}
    (h : setup_distance qs table = .ok (rows, ids)) :
    ∀ r ∈ rows, r.left_dist = r.right_dist := by
  intro r hr
  unfold setup_distance at h
  obtain ⟨rows', hrows, h⟩ := bind_ok h
  cases h
  obtain ⟨q, _, hq⟩ := exceptMap_ok_mem hrows r hr
  exact setupOne_ok_dist_eq hq

/-- Witness for C10 at the concrete query position 4 on the three-node
example table: the single returned row has both residuals equal to 4. -/
theorem left_dist_eq_right_dist_witness :
    setup_distance [4] table3 = .ok ([⟨0, 1, 4, 4⟩], [1]) ∧
      ∀ r ∈ [(⟨0, 1, 4, 4⟩ : SetupRow)], r.left_dist = r.right_dist :=
  ⟨by with_unfolding_all decide,
   @left_dist_eq_right_dist [4] table3 [⟨0, 1, 4, 4⟩] [1]
     (by with_unfolding_all decide)⟩

/-- Claim C2 (code bug): the query position 5 lies exactly at the
linear position of bin-center node 1 of the three-node example, yet the
solver returns distance 5 to that bin center, not 0: the same-edge
bracket path computes the right residual from the left node's linear
position (source lines 70–71), so the anchor is tied to the coincident
node 1 with weight 5 instead of 0. -/
theorem bin_center_query_distance_eval :
    convert_linear_position_to_track_distances [5] tg3 table3 = .ok [[5]] ∧
      (5 : ℚ) ≠ 0 := by
  constructor
  · with_unfolding_all decide
  · with_unfolding_all decide

/-- Claim C3 (code bug): at query position 4 on the three-node example
the left and right brackets (nodes 0 and 1) share the edge id, and the
source sets the right residual to `|values[left_node_ind] − 4| = 4`
rather than the right bracket's own `|values[right_node_ind] − 4| = 1`
(source line 70–71 index with `left_node_ind`). -/
theorem right_dist_uses_left_node_eval :
    setup_distance [4] table3 = .ok ([⟨0, 1, 4, 4⟩], [1]) ∧
      (4 : ℚ) ≠ npAbs (5 - 4) := by
  constructor
  · with_unfolding_all decide
  · with_unfolding_all decide

theorem npIndex_ok {α : Type} (xs : List α) (i : ℤ) (h0 : 0 ≤ i)
    (hl : i < xs.length) : ∃ v, npIndex xs i = .ok v ∧ xs.get? i.toNat = some v := by
  unfold npIndex
  rw [if_pos h0]
  have ht : i.toNat < xs.length := by omega
  rw [List.get?_eq_get ht]
  exact ⟨xs.get ⟨i.toNat, ht⟩, rfl, rfl⟩

theorem npIndex_err_ge {α : Type} (xs : List α) (i : ℤ) (h0 : 0 ≤ i)
    (hl : (xs.length : ℤ) ≤ i) : npIndex xs i = .error .indexError := by
  unfold npIndex
  rw [if_pos h0]
  have ht : xs.length ≤ i.toNat := by omega
  rw [List.get?_eq_none.2 ht]

theorem setupOne_above_range {table : List NodesRow} {q : ℚ} (hne : table ≠ [])
    (hall : ∀ r ∈ table, r.linear_position < q) :
    setupOne table q = .error .indexError := by
  have hlen : 0 < table.length := List.length_pos.2 hne
  have hs : searchsortedLeft (table.map (fun r => r.linear_position)) q
      = table.length := by
    unfold searchsortedLeft
    rw [← List.length_map table (fun r => r.linear_position)]
    rw [List.countP_eq_length]
    intro x hx
    obtain ⟨r, hr, rfl⟩ := List.mem_map.1 hx
    exact decide_eq_true (hall r hr)
  simp only [setupOne, hs]
  obtain ⟨rowL, hrowL, _⟩ :=
    npIndex_ok table ((table.length : ℤ) - 1) (by omega) (by omega)
  rw [hrowL, ok_bind]
  rw [npIndex_err_ge table (table.length : ℤ) (by omega) (by omega), error_bind]

/-- Claim C4 (counterexample): the query position 11 lies above the
largest node linear position (10) of the three-node example table, and
`_setup_distance` does not map it to the nearest boundary node: the
searchsorted insertion index equals the table length, the bracket lookup
`nodes_df.iloc[bin_ind]` goes out of bounds, and the call fails with an
index error instead of producing a distance row. -/
theorem setup_distance_above_range_cex :
    setup_distance [11] table3 = .error .indexError := by
  with_unfolding_all decide

/-- Claim C4 (amended): for every scalar query position strictly greater
than all node linear positions of a non-empty index table, the bracket
lookup of `_setup_distance` indexes the table out of bounds and the call
fails with an index error; the position is not mapped to the nearest
boundary node.  (Positions below the smallest node linear position do
stay in bounds, the index −1 wrapping to the last table row.) -/
theorem setup_distance_above_range_fails (table : List NodesRow) (q : ℚ)
    (hne : table ≠ []) (hall : ∀ r ∈ table, r.linear_position < q) :
    setup_distance [q] table = .error .indexError := by
  have h1 := setupOne_above_range hne hall
  simp [setup_distance, exceptMap, h1]

/-- Witness for C4 at the concrete query position 12 on the three-node
example table. -/
theorem setup_distance_above_range_fails_witness :
    (table3 ≠ [] ∧ ∀ r ∈ table3, r.linear_position < 12) ∧
      setup_distance [12] table3 = .error .indexError :=
  ⟨⟨by with_unfolding_all decide, by with_unfolding_all decide⟩,
   setup_distance_above_range_fails table3 12 (by with_unfolding_all decide)
     (by with_unfolding_all decide)⟩

theorem distLookup_cases (d : List (NodeId × ℚ)) (u : NodeId) :
    (∃ v, distLookup d u = .ok v) ∨ distLookup d u = .error .keyError := by
  unfold distLookup
  cases lookupD d u with
  | none => exact Or.inr rfl
  | some v => exact Or.inl ⟨v, rfl⟩

theorem exceptMap_keyError {α β : Type} {f : α → Except PyError β}
    (hcases : ∀ x, (∃ v, f x = .ok v) ∨ f x = .error .keyError) :
    ∀ {xs : List α}, (∃ x ∈ xs, f x = .error .keyError) →
      exceptMap f xs = .error .keyError := by
  intro xs
  induction xs with
  | nil => rintro ⟨x, hx, _⟩; simp at hx
  | cons x xs ih =>
    rintro ⟨x', hx', hfx'⟩
    unfold exceptMap
    rcases List.mem_cons.1 hx' with h | h
    · subst h; rw [hfx']
    · rcases hcases x with ⟨v, hv⟩ | hv
      · rw [hv, ih ⟨x', h, hfx'⟩]
      · rw [hv]

/-- Claim C5 (counterexample): bin-center node 2 is referenced by the
index table but disconnected from the rest of the graph; the whole
distance-solving call fails with a `KeyError` (the Dijkstra distance
dictionary has no entry for the unreachable node), not with the
`GraphTopologyError` the claim names — no such error class exists in the
code. -/
theorem unreachable_bin_center_cex :
    convert_linear_position_to_track_distances [2] tgDisc tableDisc
        = .error .keyError ∧
      convert_linear_position_to_track_distances [2] tgDisc tableDisc
        ≠ .error .graphTopologyError := by
  constructor
  · with_unfolding_all decide
  · with_unfolding_all decide

/-- Claim C5 (amended): whenever a bin-center node id referenced in the
index table has no entry in the shortest-path-length dictionary computed
from the inserted anchor (it is unreachable), `get_distance2` fails with
a `KeyError` from the dictionary lookup — aborting the call with no
partial distance row — rather than silently returning an infinite
distance; the source defines no `GraphTopologyError`. -/
theorem get_distance2_unreachable (g : WorkGraph) (lid rid : NodeId)
    (ld rd : ℚ) (ids : List ℕ) (id' : ℕ) (hmem : id' ∈ ids)
    (hun : lookupD (shortestPaths
        (addPathEdge (addPathEdge g lid .anchor ld) .anchor rid rd) .anchor)
        (.node id') = none) :
    (get_distance2 g lid rid ld rd ids).1 = .error .keyError := by
  unfold get_distance2
  apply exceptMap_keyError (fun x => distLookup_cases _ _)
  refine ⟨id', hmem, ?_⟩
  unfold distLookup
  rw [hun]

/-- Witness for C5 on the disconnected fixture: node 2 is absent from
the anchor's distance dictionary and the call returns `KeyError`. -/
theorem get_distance2_unreachable_witness :
    (2 ∈ [2] ∧ lookupD (shortestPaths
        (addPathEdge (addPathEdge (injectGraph tgDisc) (.node 0) .anchor 2)
          .anchor (.node 1) 2) .anchor) (.node 2) = none) ∧
      (get_distance2 (injectGraph tgDisc) (.node 0) (.node 1) 2 2 [2]).1
        = .error .keyError :=
  ⟨⟨by with_unfolding_all decide, by with_unfolding_all decide⟩,
   get_distance2_unreachable (injectGraph tgDisc) (.node 0) (.node 1) 2 2 [2] 2
     (by with_unfolding_all decide) (by with_unfolding_all decide)⟩

theorem exceptMap_fixed_error {α β : Type} {f : α → Except PyError β}
    {err : PyError}
    (hcases : ∀ x, (∃ v, f x = .ok v) ∨ f x = .error err) :
    ∀ {xs : List α}, (∃ x ∈ xs, f x = .error err) →
      exceptMap f xs = .error err := by
  intro xs
  induction xs with
  | nil => rintro ⟨x, hx, _⟩; simp at hx
  | cons x xs ih =>
    rintro ⟨x', hx', hfx'⟩
    unfold exceptMap
    rcases List.mem_cons.1 hx' with h | h
    · subst h; rw [hfx']
    · rcases hcases x with ⟨v, hv⟩ | hv
      · rw [hv, ih ⟨x', h, hfx'⟩]
      · rw [hv]

theorem kernelChannel_cases (e s b : ℝ) :
    (∃ v, kernelChannel e s b = .ok v) ∨
      kernelChannel e s b = .error .zeroDivisionError := by
  unfold kernelChannel
  by_cases hb : b = 0
  · right; rw [if_pos hb]
  · left; exact ⟨_, if_neg hb⟩

/-- Claim C6 (counterexample): evaluating the multiunit kernel with a
zero bandwidth fails with `ZeroDivisionError` — numba's default
`error_model='python'` raises on the float division by a zero bandwidth
— not with the `ConfigurationError` the claim names, which does not
exist in the code. -/
theorem zero_bandwidth_cex :
    numba_product_call [0] [[0]] [0] = Except.error PyError.zeroDivisionError ∧
      numba_product_call [0] [[0]] [0] ≠ Except.error PyError.configurationError := by
  have hk : kernelChannel 0 0 0 = .error .zeroDivisionError := by
    unfold kernelChannel
    rw [if_pos rfl]
  have hval : numba_product_call [0] [[0]] [0]
      = .error .zeroDivisionError := by
    unfold numba_product_call
    unfold exceptMap
    rw [show ([(0 : ℝ)].zip ([(0 : ℝ)].zip [(0 : ℝ)]))
        = [((0 : ℝ), ((0 : ℝ), (0 : ℝ)))] from rfl]
    unfold exceptMap
    dsimp only
    rw [hk]
  exact ⟨hval, by
    rw [hval]
    exact fun h => PyError.noConfusion (Except.error.inj h)⟩

/-- Claim C6 (amended): whenever the bandwidth vector has a zero entry
in a channel the kernel loop reaches — every training row's zipped
channels contain a zero bandwidth and the training sample is non-empty —
the `numba_product` call fails with `ZeroDivisionError` (numba's default
`error_model='python'` raises on float division by zero, and no
validation precedes the division), never with `ConfigurationError`,
which does not exist in the code. -/
theorem numba_product_zero_bandwidth_raises (eval_point : List ℝ)
    (samples : List (List ℝ)) (bandwidths : List ℝ) (hne : samples ≠ [])
    (hzero : ∀ row ∈ samples,
      ∃ p ∈ eval_point.zip (row.zip bandwidths), p.2.2 = (0 : ℝ)) :
    numba_product_call eval_point samples bandwidths
      = .error .zeroDivisionError := by
  cases samples with
  | nil => exact absurd rfl hne
  | cons s rest =>
    have hs : exceptMap (fun p => kernelChannel p.1 p.2.1 p.2.2)
        (eval_point.zip (s.zip bandwidths)) = .error .zeroDivisionError := by
      obtain ⟨p, hp, hp0⟩ := hzero s (List.mem_cons_self s rest)
      refine exceptMap_fixed_error
        (fun q => kernelChannel_cases q.1 q.2.1 q.2.2) ⟨p, hp, ?_⟩
      unfold kernelChannel
      rw [if_pos hp0]
    unfold numba_product_call
    unfold exceptMap
    rw [hs]

/-- Witness for C6 at the single-channel zero-bandwidth input. -/
theorem numba_product_zero_bandwidth_raises_witness :
    (([[(0 : ℝ)]] : List (List ℝ)) ≠ [] ∧
      ∀ row ∈ [[(0 : ℝ)]],
        ∃ p ∈ [(0 : ℝ)].zip (row.zip [(0 : ℝ)]), p.2.2 = (0 : ℝ)) ∧
      numba_product_call [0] [[0]] [0] = .error .zeroDivisionError :=
  ⟨⟨by simp, by
      intro row hrow
      rw [List.mem_singleton.1 hrow]
      exact ⟨(0, (0, 0)), List.mem_singleton.2 rfl, rfl⟩⟩,
   numba_product_zero_bandwidth_raises [0] [[0]] [0] (by simp)
     (by
      intro row hrow
      rw [List.mem_singleton.1 hrow]
      exact ⟨(0, (0, 0)), List.mem_singleton.2 rfl, rfl⟩)⟩

theorem le_foldl_max : ∀ (xs : List ℝ) (x : ℝ), x ≤ xs.foldl max x := by
  intro xs
  induction xs with
  | nil => intro x; exact le_refl x
  | cons y ys ih =>
    intro x
    exact le_trans (le_max_left x y) (ih (max x y))

theorem mem_le_foldl_max : ∀ (xs : List ℝ) (a x : ℝ), a ∈ xs → a ≤ xs.foldl max x := by
  intro xs
  induction xs with
  | nil => intro a x ha; simp at ha
  | cons y ys ih =>
    intro a x ha
    rw [List.foldl_cons]
    rcases List.mem_cons.1 ha with h | h
    · subst h
      exact le_trans (le_max_right x a) (le_foldl_max ys (max x a))
    · exact ih a (max x y) h

theorem foldl_max_mem : ∀ (xs : List ℝ) (x : ℝ), xs.foldl max x = x ∨ xs.foldl max x ∈ xs := by
  intro xs
  induction xs with
  | nil => intro x; exact Or.inl rfl
  | cons y ys ih =>
    intro x
    rcases ih (max x y) with h | h
    · rcases max_choice x y with hm | hm
      · exact Or.inl (by rw [List.foldl_cons, h, hm])
      · exact Or.inr (by rw [List.foldl_cons, h, hm]; exact List.mem_cons_self y ys)
    · exact Or.inr (List.mem_cons_of_mem y h)

theorem npMax_mem : ∀ {xs : List ℝ}, xs ≠ [] → npMax xs ∈ xs := by
  intro xs h
  cases xs with
  | nil => exact absurd rfl h
  | cons x ys =>
    show List.foldl max x ys ∈ x :: ys
    rcases foldl_max_mem ys x with h1 | h1
    · rw [h1]; exact List.mem_cons_self x ys
    · exact List.mem_cons_of_mem x h1

theorem le_npMax : ∀ {xs : List ℝ} {a : ℝ}, a ∈ xs → a ≤ npMax xs := by
  intro xs a h
  cases xs with
  | nil => simp at h
  | cons x ys =>
    show a ≤ List.foldl max x ys
    rcases List.mem_cons.1 h with h1 | h1
    · exact h1 ▸ le_foldl_max ys x
    · exact mem_le_foldl_max ys a x h1

/-- Claim C8: for every non-empty log-likelihood array, the array a
`scaled_likelihood`-decorated function returns — `exp(ll - max(ll))`,
the maximum taken over the whole result — has maximum value exactly 1. -/
theorem scaled_likelihood_max_one (xs : List ℝ) (h : xs ≠ []) :
    npMax (scaled_likelihood xs) = 1 := by
  have hmem : Real.exp (npMax xs - npMax xs) ∈ scaled_likelihood xs :=
    List.mem_map_of_mem _ (npMax_mem h)
  rw [sub_self, Real.exp_zero] at hmem
  have hne : scaled_likelihood xs ≠ [] := by
    simpa [scaled_likelihood] using h
  apply le_antisymm
  · obtain ⟨v, hv, heq⟩ := List.mem_map.1 (npMax_mem hne)
    have heq' : npMax (scaled_likelihood xs) = Real.exp (v - npMax xs) := heq.symm
    rw [heq']
    have hvm : v ≤ npMax xs := le_npMax hv
    exact Real.exp_le_one_iff.2 (by linarith)
  · exact le_npMax hmem

/-- Witness for C8 on the concrete array `[0, -1]`. -/
theorem scaled_likelihood_max_one_witness :
    ([(0 : ℝ), -1] ≠ []) ∧ npMax (scaled_likelihood [(0 : ℝ), -1]) = 1 :=
  ⟨by simp, scaled_likelihood_max_one [0, -1] (by simp)⟩

theorem product_row_self : ∀ (xs bs : List ℝ), bs.length = xs.length →
    ((xs.zip (xs.zip bs)).map
      (fun p => Real.exp (-(0.5) * ((p.1 - p.2.1) / p.2.2) ^ 2) / (p.2.2 * SQRT_2PI) / p.2.2)).prod
    = (bs.map (fun b => 1 / (b * SQRT_2PI * b))).prod := by
  intro xs
  induction xs with
  | nil =>
    intro bs hb
    rw [List.length_eq_zero.1 hb]
    simp
  | cons x xs ih =>
    intro bs hb
    cases bs with
    | nil => simp at hb
    | cons b bs' =>
      simp only [List.zip_cons_cons, List.map_cons, List.prod_cons]
      rw [ih bs' (by simpa using hb)]
      congr 1
      rw [sub_self, zero_div]
      rw [show (-(0.5 : ℝ)) * (0 : ℝ) ^ 2 = 0 by norm_num]
      rw [Real.exp_zero, div_div]

/-- Claim C1 (counterexample): with identical single-row train and test
features, bandwidth 2 and spatial kernel entry 1 at the single interior
bin, `evaluate_kde` does not return `1/(2·√(2π))` (the per-channel
kernel normalised by the bandwidth once): `numba_product` divides by the
bandwidth a second time after the Gaussian normalisation. -/
theorem get_kde_claimed_normalization_cex :
    get_kde [[0]] [[0]] [true] [2] [[1]] ≠ [[1 / (2 * SQRT_2PI)]] := by
  have ht : ([[(1 : ℝ)]]).transpose = [[1]] := rfl
  have hval : get_kde [[0]] [[0]] [true] [2] [[1]] = [[1 / (2 * SQRT_2PI * 2)]] := by
    simp only [get_kde, numba_product, vecMat, scatterInterior, ht,
      List.map_cons, List.map_nil, List.zip_cons_cons, List.zip_nil_right,
      List.sum_cons, List.sum_nil, mul_one, add_zero,
      List.prod_cons, List.prod_nil]
    rw [show ((0 : ℝ) - 0) / 2 = 0 by norm_num]
    rw [show (-(0.5 : ℝ)) * (0 : ℝ) ^ 2 = 0 by norm_num]
    rw [Real.exp_zero, div_div, one_div]
  rw [hval]
  intro hcon
  simp only [List.cons.injEq, and_true] at hcon
  have hs : 0 < SQRT_2PI := Real.sqrt_pos.2 (by positivity)
  have h2s : 0 < 2 * SQRT_2PI := by linarith
  have h4s : 0 < 2 * SQRT_2PI * 2 := by linarith
  rw [div_eq_div_iff (ne_of_gt h4s) (ne_of_gt h2s)] at hcon
  nlinarith

/-- Claim C1 (amended): for identical single-row train and test feature
vectors and a bandwidth vector of matching width, `evaluate_kde` returns
at a bin with spatial-kernel entry 1 the density
`∏ over channels k of 1/(b_k²·√(2π))` — each per-channel kernel is
normalised by the Gaussian constant once but by the bandwidth twice. -/
theorem get_kde_self_normalization (xs bs : List ℝ) (h : bs.length = xs.length) :
    get_kde [xs] [xs] [true] bs [[1]]
      = [[(bs.map (fun b => 1 / (b * SQRT_2PI * b))).prod]] := by
  have hP := product_row_self xs bs h
  have ht : ([[(1 : ℝ)]]).transpose = [[1]] := rfl
  simp only [get_kde, numba_product, vecMat, scatterInterior, ht,
    List.map_cons, List.map_nil, List.zip_cons_cons, List.zip_nil_right,
    List.sum_cons, List.sum_nil, mul_one, add_zero]
  rw [hP]

/-- Witness for C1 at the single-channel input with bandwidth 2. -/
theorem get_kde_self_normalization_witness :
    (([(2 : ℝ)]).length = ([(0 : ℝ)]).length) ∧
      get_kde [[0]] [[0]] [true] [2] [[1]]
        = [[([(2 : ℝ)].map (fun b => 1 / (b * SQRT_2PI * b))).prod]] :=
  ⟨rfl, get_kde_self_normalization [0] [2] rfl⟩

/-- A graph that does not contain the transient anchor node, neither in
its node set nor in any edge — the state of every track graph handed to
the distance solver, whose node ids are integers while the anchor is the
string `'a'`. -/
def anchorFree (g : WorkGraph) : Prop :=
  NodeId.anchor ∉ g.nodes ∧
    ∀ e ∈ g.edges, e.1 ≠ NodeId.anchor ∧ e.2.1 ≠ NodeId.anchor

theorem anchorFree_inject (tg : TrackGraph) : anchorFree (injectGraph tg) := by
  constructor
  · intro h
    obtain ⟨n, -, hn⟩ := List.mem_map.1 h
    exact NodeId.noConfusion hn
  · intro e he
    obtain ⟨e', -, rfl⟩ := List.mem_map.1 he
    exact ⟨fun h => NodeId.noConfusion h, fun h => NodeId.noConfusion h⟩

theorem edgeMatches_false_to_anchor {e : NodeId × NodeId × ℚ}
    (h1 : e.1 ≠ .anchor) (h2 : e.2.1 ≠ .anchor) (u : NodeId) :
    edgeMatches e u .anchor = false := by
  simp [edgeMatches, h1, h2]

theorem edgeMatches_false_from_anchor {e : NodeId × NodeId × ℚ}
    (h1 : e.1 ≠ .anchor) (h2 : e.2.1 ≠ .anchor) (u : NodeId) :
    edgeMatches e .anchor u = false := by
  simp [edgeMatches, h1, h2]

theorem edgeMatches_anchor_pair (lid rid : NodeId) (hlna : lid ≠ .anchor)
    (w : ℚ) : edgeMatches (lid, .anchor, w) .anchor rid = decide (lid = rid) := by
  simp [edgeMatches, hlna]

theorem addPathEdge_fresh (g : WorkGraph) (hA : anchorFree g) (lid : NodeId)
    (hl : lid ∈ g.nodes) (w : ℚ) :
    addPathEdge g lid .anchor w
      = ⟨g.nodes ++ [.anchor], g.edges ++ [(lid, .anchor, w)]⟩ := by
  have hany : g.edges.any (fun e => edgeMatches e lid .anchor) = false := by
    rw [List.any_eq_false]
    intro e he
    rw [edgeMatches_false_to_anchor (hA.2 e he).1 (hA.2 e he).2]
    exact Bool.false_ne_true
  unfold addPathEdge
  simp [hl, hA.1, hany]

theorem map_self_of_forall {α : Type} (l : List α) (f : α → α)
    (h : ∀ x ∈ l, f x = x) : l.map f = l := by
  induction l with
  | nil => rfl
  | cons x xs ih =>
    rw [List.map_cons, h x (List.mem_cons_self x xs),
      ih (fun y hy => h y (List.mem_cons_of_mem x hy))]

theorem addPathEdge_second (g : WorkGraph) (hA : anchorFree g)
    (lid rid : NodeId) (hlna : lid ≠ .anchor) (hr : rid ∈ g.nodes)
    (ld rd : ℚ) :
    addPathEdge ⟨g.nodes ++ [.anchor], g.edges ++ [(lid, .anchor, ld)]⟩
        .anchor rid rd
      = if lid = rid then
          ⟨g.nodes ++ [.anchor], g.edges ++ [(lid, .anchor, rd)]⟩
        else
          ⟨g.nodes ++ [.anchor],
            g.edges ++ [(lid, .anchor, ld), (.anchor, rid, rd)]⟩ := by
  have hanch : (NodeId.anchor) ∈ g.nodes ++ [NodeId.anchor] := by simp
  have hrid : rid ∈ g.nodes ++ [NodeId.anchor] := List.mem_append_left _ hr
  have hold : ∀ e ∈ g.edges, edgeMatches e .anchor rid = false := fun e he =>
    edgeMatches_false_from_anchor (hA.2 e he).1 (hA.2 e he).2 rid
  have hmapid : g.edges.map
      (fun e => if edgeMatches e .anchor rid then (e.1, e.2.1, rd) else e)
      = g.edges :=
    map_self_of_forall _ _ (fun e he => by simp [hold e he])
  by_cases hlr : lid = rid
  · subst hlr
    have hany : (g.edges ++ [(lid, NodeId.anchor, ld)]).any
        (fun e => edgeMatches e .anchor lid) = true := by
      rw [List.any_eq_true]
      exact ⟨(lid, NodeId.anchor, ld), by simp,
        by rw [edgeMatches_anchor_pair lid lid hlna]; exact decide_eq_true rfl⟩
    unfold addPathEdge
    rw [if_pos rfl]
    simp [hanch, hrid, hany, hmapid, edgeMatches_anchor_pair lid lid hlna]
  · have hany : (g.edges ++ [(lid, NodeId.anchor, ld)]).any
        (fun e => edgeMatches e .anchor rid) = false := by
      rw [List.any_eq_false]
      intro e he
      rcases List.mem_append.1 he with h | h
      · rw [hold e h]; exact Bool.false_ne_true
      · rw [List.mem_singleton.1 h]
        rw [edgeMatches_anchor_pair lid rid hlna]
        simp [hlr]
    unfold addPathEdge
    rw [if_neg hlr]
    simp [hanch, hrid, hany, List.append_assoc]

theorem removeNode_anchor_append (g : WorkGraph) (hA : anchorFree g)
    (extra : List (NodeId × NodeId × ℚ))
    (hextra : ∀ e ∈ extra, e.1 = NodeId.anchor ∨ e.2.1 = NodeId.anchor) :
    removeNode ⟨g.nodes ++ [NodeId.anchor], g.edges ++ extra⟩ .anchor = g := by
  unfold removeNode
  have hn : (g.nodes ++ [NodeId.anchor]).filter
      (fun x => !decide (x = NodeId.anchor)) = g.nodes := by
    rw [List.filter_append]
    have h1 : g.nodes.filter (fun x => !decide (x = NodeId.anchor)) = g.nodes :=
      List.filter_eq_self.2 (fun a ha => by
        have hne : a ≠ NodeId.anchor := fun h => hA.1 (h ▸ ha)
        simp [hne])
    have h2 : ([NodeId.anchor]).filter
        (fun x => !decide (x = NodeId.anchor)) = [] := by simp
    rw [h1, h2, List.append_nil]
  have he : (g.edges ++ extra).filter
      (fun e => !decide (e.1 = NodeId.anchor) && !decide (e.2.1 = NodeId.anchor))
      = g.edges := by
    rw [List.filter_append]
    have h1 : g.edges.filter
        (fun e => !decide (e.1 = NodeId.anchor) && !decide (e.2.1 = NodeId.anchor))
        = g.edges :=
      List.filter_eq_self.2 (fun e he => by simp [(hA.2 e he).1, (hA.2 e he).2])
    have h2 : extra.filter
        (fun e => !decide (e.1 = NodeId.anchor) && !decide (e.2.1 = NodeId.anchor))
        = [] := by
      rw [List.filter_eq_nil_iff]
      intro e he
      rcases hextra e he with h | h <;> simp [h]
    rw [h1, h2, List.append_nil]
  rw [hn, he]

/-- After `get_distance2` removes the transient anchor, the working
graph is exactly the graph it was handed: the anchor and both temporary
edges are gone, and no pre-existing node, edge or weight was touched.
Requires the graph to be anchor-free (true of every track graph, whose
node ids are integers) and the brackets to be existing nodes. -/
theorem get_distance2_restores (g : WorkGraph) (hA : anchorFree g)
    (lid rid : NodeId) (hl : lid ∈ g.nodes) (hr : rid ∈ g.nodes)
    (ld rd : ℚ) (ids : List ℕ) :
    (get_distance2 g lid rid ld rd ids).2 = g := by
  have hlna : lid ≠ NodeId.anchor := fun h => hA.1 (h ▸ hl)
  unfold get_distance2
  dsimp only
  rw [addPathEdge_fresh g hA lid hl ld]
  rw [addPathEdge_second g hA lid rid hlna hr ld rd]
  by_cases hlr : lid = rid
  · rw [if_pos hlr]
    exact removeNode_anchor_append g hA [(lid, NodeId.anchor, rd)]
      (fun e he => by rw [List.mem_singleton.1 he]; exact Or.inr rfl)
  · rw [if_neg hlr]
    refine removeNode_anchor_append g hA
      [(lid, NodeId.anchor, ld), (NodeId.anchor, rid, rd)] ?_
    intro e he
    rcases List.mem_cons.1 he with h | h
    · rw [h]; exact Or.inr rfl
    · rw [List.mem_singleton.1 h]; exact Or.inl rfl

/-- Distance row of a single observation solved on graph `g` (the first
component of `get_distance2`). -/
def distRow (g : WorkGraph) (ids : List ℕ) (o : SetupRow) : Except PyError (List ℚ) :=
  (get_distance2 g (.node o.left_node_id) (.node o.right_node_id)
    o.left_dist o.right_dist ids).1

theorem exceptMap_cons {α β : Type} (f : α → Except PyError β) (x : α)
    (xs : List α) :
    exceptMap f (x :: xs) =
      match f x with
      | .error e => .error e
      | .ok y =>
        match exceptMap f xs with
        | .error e => .error e
        | .ok ys => .ok (y :: ys) := rfl

theorem batch_distance_eq (g : WorkGraph) (hA : anchorFree g) (ids : List ℕ) :
    ∀ (os : List SetupRow),
      (∀ o ∈ os, NodeId.node o.left_node_id ∈ g.nodes ∧
        NodeId.node o.right_node_id ∈ g.nodes) →
      batch_distance g os ids = (exceptMap (distRow g ids) os, g) := by
  intro os
  induction os with
  | nil => intro _; rfl
  | cons o os ih =>
    intro hmem
    have hsnd : (get_distance2 g (.node o.left_node_id) (.node o.right_node_id)
        o.left_dist o.right_dist ids).2 = g :=
      get_distance2_restores g hA _ _ (hmem o (List.mem_cons_self o os)).1
        (hmem o (List.mem_cons_self o os)).2 _ _ ids
    have he : get_distance2 g (.node o.left_node_id) (.node o.right_node_id)
        o.left_dist o.right_dist ids = (distRow g ids o, g) :=
      Prod.ext rfl hsnd
    have htail := ih (fun o' ho' => hmem o' (List.mem_cons_of_mem o ho'))
    unfold batch_distance
    rw [he]
    dsimp only
    rw [htail, exceptMap_cons]
    cases hr : distRow g ids o with
    | error e => rfl
    | ok row =>
      dsimp only
      cases hrs : exceptMap (distRow g ids) os with
      | error e => rfl
      | ok rows => rfl

theorem exceptMap_congr {α β : Type} {f g : α → Except PyError β} :
    ∀ {xs : List α}, (∀ x ∈ xs, f x = g x) → exceptMap f xs = exceptMap g xs := by
  intro xs
  induction xs with
  | nil => intro _; rfl
  | cons x xs ih =>
    intro h
    rw [exceptMap_cons, exceptMap_cons, h x (List.mem_cons_self x xs),
      ih (fun y hy => h y (List.mem_cons_of_mem x hy))]

theorem exceptMap_map {α β γ : Type} (f : β → Except PyError γ) (h : α → β) :
    ∀ (xs : List α), exceptMap f (xs.map h) = exceptMap (fun x => f (h x)) xs := by
  intro xs
  induction xs with
  | nil => rfl
  | cons x xs ih =>
    rw [List.map_cons, exceptMap_cons, exceptMap_cons, ih]

theorem exceptMap_append {α β : Type} (f : α → Except PyError β) :
    ∀ (xs ys : List α),
      exceptMap f (xs ++ ys) =
        match exceptMap f xs with
        | .error e => .error e
        | .ok as =>
          match exceptMap f ys with
          | .error e => .error e
          | .ok bs => .ok (as ++ bs) := by
  intro xs ys
  induction xs with
  | nil =>
    rw [List.nil_append]
    show exceptMap f ys = _
    cases exceptMap f ys <;> rfl
  | cons x xs ih =>
    rw [List.cons_append, exceptMap_cons, exceptMap_cons, ih]
    cases f x with
    | error e => rfl
    | ok y =>
      dsimp only
      cases exceptMap f xs with
      | error e => rfl
      | ok as =>
        dsimp only
        cases exceptMap f ys <;> rfl

theorem exceptMap_flatten {α β : Type} (f : α → Except PyError β) :
    ∀ (xss : List (List α)),
      (exceptMap (fun xs => exceptMap f xs) xss >>= fun chunks => pure chunks.flatten)
        = exceptMap f xss.flatten := by
  intro xss
  induction xss with
  | nil => rfl
  | cons xs xss ih =>
    rw [List.flatten_cons, exceptMap_cons, exceptMap_append]
    cases hxs : exceptMap f xs with
    | error e => rfl
    | ok as =>
      dsimp only
      rw [← ih]
      cases hrest : exceptMap (fun xs => exceptMap f xs) xss with
      | error e => rfl
      | ok chunks =>
        dsimp only
        rw [ok_bind, ok_bind]
        show Except.ok (as :: chunks).flatten = _
        rw [List.flatten_cons]
        cases exceptMap f xss.flatten <;> rfl

theorem batchGo_nil (n b fuel ind : ℕ) (h : ¬ ind < n) :
    batchGo n b fuel ind = [] := by
  cases fuel with
  | zero => rfl
  | succ fuel => unfold batchGo; rw [if_neg h]

theorem batchGo_flatten (n b : ℕ) :
    ∀ (fuel ind : ℕ), n - ind ≤ fuel * b →
      (batchGo n b fuel ind).flatten = List.range' ind (n - ind) := by
  intro fuel
  induction fuel with
  | zero =>
    intro ind h
    have h0 : n - ind = 0 := by omega
    rw [h0]
    rfl
  | succ fuel ih =>
    intro ind h
    by_cases hind : ind < n
    · unfold batchGo
      rw [if_pos hind, List.flatten_cons]
      have hmul : (fuel + 1) * b = fuel * b + b := Nat.succ_mul fuel b
      rw [hmul] at h
      rcases le_or_lt (ind + b) n with hle | hlt
      · have hih := ih (ind + b) (by omega)
        rw [hih]
        rw [Nat.min_eq_left hle, Nat.add_sub_cancel_left]
        have happ := List.range'_append ind b (n - (ind + b)) 1
        have harg : ind + 1 * b = ind + b := by omega
        rw [harg] at happ
        rw [happ]
        congr 1
        omega
      · rw [batchGo_nil n b fuel (ind + b) (by omega)]
        show List.range' ind (min (ind + b) n - ind) ++ [] = _
        rw [List.append_nil, Nat.min_eq_right (le_of_lt hlt)]
    · rw [batchGo_nil n b (fuel + 1) ind hind]
      have h0 : n - ind = 0 := by omega
      rw [h0]
      rfl

theorem batch_flatten (n b : ℕ) (hb : 0 < b) :
    (batch n b).flatten = List.range n := by
  unfold batch
  rw [batchGo_flatten n b n 0 (by
    have : n * 1 ≤ n * b := Nat.mul_le_mul_left n hb
    omega)]
  rw [Nat.sub_zero, List.range_eq_range']

theorem npIndex_ok_mem {α : Type} {xs : List α} {i : ℤ} {v : α}
    (h : npIndex xs i = .ok v) : v ∈ xs := by
  unfold npIndex at h
  by_cases h0 : 0 ≤ i
  · rw [if_pos h0] at h
    cases hg : xs.get? i.toNat with
    | none => rw [hg] at h; cases h
    | some w =>
      rw [hg] at h
      cases h
      exact List.get?_mem hg
  · rw [if_neg h0] at h
    by_cases h1 : 0 ≤ i + xs.length
    · rw [if_pos h1] at h
      cases hg : xs.get? (i + xs.length).toNat with
      | none => rw [hg] at h; cases h
      | some w =>
        rw [hg] at h
        cases h
        exact List.get?_mem hg
    · rw [if_neg h1] at h
      cases h

theorem setupOne_ok_bracket_mem {table : List NodesRow} {q : ℚ} {r : SetupRow}
    (h : setupOne table q = .ok r) :
    r.left_node_id ∈ table.map (fun row => row.node_id) ∧
      r.right_node_id ∈ table.map (fun row => row.node_id) := by
  unfold setupOne at h
  obtain ⟨rowL, hL, h⟩ := bind_ok h
  obtain ⟨rowR, hR, h⟩ := bind_ok h
  obtain ⟨lid, hlid, h⟩ := bind_ok h
  obtain ⟨rid, hrid, h⟩ := bind_ok h
  obtain ⟨vL, hvL, h⟩ := bind_ok h
  cases h
  exact ⟨npIndex_ok_mem hlid, npIndex_ok_mem hrid⟩

theorem getD_mem {α : Type} [Inhabited α] {xs : List α} {i : ℕ}
    (h : i < xs.length) : xs.getD i default ∈ xs := by
  have hg : xs.get? i = some (xs.get ⟨i, h⟩) := List.get?_eq_get h
  have heq : xs.getD i default = xs.get ⟨i, h⟩ := by
    rw [List.getD_eq_getElem?_getD, ← List.get?_eq_getElem?, hg]
    rfl
  rw [heq]
  exact List.get_mem xs i h

theorem exceptMap_getD_range {α β : Type} [Inhabited α] (f : α → Except PyError β) :
    ∀ (rows : List α),
      exceptMap (fun i => f (rows.getD i default)) (List.range rows.length)
        = exceptMap f rows := by
  intro rows
  induction rows with
  | nil => rfl
  | cons r rs ih =>
    rw [List.length_cons, List.range_succ_eq_map, exceptMap_cons, exceptMap_map]
    have hc : exceptMap (fun x => f ((r :: rs).getD (Nat.succ x) default))
        (List.range rs.length) = exceptMap f rs := by
      rw [← ih]
      exact exceptMap_congr (fun x _ => rfl)
    rw [hc, exceptMap_cons]
    rfl

/-- Reference computation for the distance pipeline: solve every
observation independently on the shared graph copy, in order, with no
batching. -/
def unbatched (qs : List ℚ) (tg : TrackGraph) (table : List NodesRow) :
    Except PyError (List (List ℚ)) :=
  match setup_distance qs table with
  | .error e => .error e
  | .ok (rows, ids) => exceptMap (distRow (injectGraph tg) ids) rows

theorem convertB_eq (b : ℕ) (hb : 0 < b) (qs : List ℚ) (tg : TrackGraph)
    (table : List NodesRow) (hmem : ∀ r ∈ table, r.node_id ∈ tg.nodes) :
    convertB b qs tg table = unbatched qs tg table := by
  unfold convertB unbatched
  cases hsd : setup_distance qs table with
  | error e => rw [error_bind]
  | ok pr =>
    obtain ⟨rows, ids⟩ := pr
    rw [ok_bind]
    dsimp only
    have hAF := anchorFree_inject tg
    have hrowmem : ∀ o ∈ rows,
        NodeId.node o.left_node_id ∈ (injectGraph tg).nodes ∧
          NodeId.node o.right_node_id ∈ (injectGraph tg).nodes := by
      intro o ho
      have hsd' := hsd
      unfold setup_distance at hsd'
      obtain ⟨rows', hrows, hpr⟩ := bind_ok hsd'
      have hpr' := Except.ok.inj hpr
      injection hpr' with h1 h2
      obtain ⟨q, -, hq⟩ := exceptMap_ok_mem hrows o (h1 ▸ ho)
      obtain ⟨hlmem, hrmem⟩ := setupOne_ok_bracket_mem hq
      constructor
      · obtain ⟨row, hrow, hid⟩ := List.mem_map.1 hlmem
        exact hid ▸ List.mem_map_of_mem NodeId.node (hmem row hrow)
      · obtain ⟨row, hrow, hid⟩ := List.mem_map.1 hrmem
        exact hid ▸ List.mem_map_of_mem NodeId.node (hmem row hrow)
    have hbf := batch_flatten rows.length b hb
    have hidxlt : ∀ idxs ∈ batch rows.length b, ∀ i ∈ idxs, i < rows.length := by
      intro idxs hidxs i hi
      have hfl : i ∈ (batch rows.length b).flatten :=
        List.mem_flatten.2 ⟨idxs, hidxs, hi⟩
      rw [hbf] at hfl
      exact List.mem_range.1 hfl
    have hF : ∀ idxs ∈ batch rows.length b,
        (batch_distance (injectGraph tg)
            (idxs.map (fun i => rows.getD i default)) ids).1
          = exceptMap
              (fun i => distRow (injectGraph tg) ids (rows.getD i default)) idxs := by
      intro idxs hidxs
      have hm : ∀ o ∈ idxs.map (fun i => rows.getD i default),
          NodeId.node o.left_node_id ∈ (injectGraph tg).nodes ∧
            NodeId.node o.right_node_id ∈ (injectGraph tg).nodes := by
        intro o ho
        obtain ⟨i, hi, rfl⟩ := List.mem_map.1 ho
        exact hrowmem _ (getD_mem (hidxlt idxs hidxs i hi))
      rw [batch_distance_eq (injectGraph tg) hAF ids _ hm]
      rw [exceptMap_map]
    have hcong := exceptMap_congr hF
    rw [hcong, exceptMap_flatten, hbf, exceptMap_getD_range]

/-- Claim C7: distance solving is batch-size invariant — the `batch`
generator partitions the observation indices 0..n−1 into consecutive
in-order ranges, every batch runs on its own copy of the track graph
whose state `get_distance2` restores after each observation, and the
per-batch blocks are concatenated in submission order, so any two
positive batch sizes produce identical results. -/
theorem batch_size_invariance (b1 b2 : ℕ) (hb1 : 0 < b1) (hb2 : 0 < b2)
    (qs : List ℚ) (tg : TrackGraph) (table : List NodesRow)
    (hmem : ∀ r ∈ table, r.node_id ∈ tg.nodes) :
    convertB b1 qs tg table = convertB b2 qs tg table :=
  (convertB_eq b1 hb1 qs tg table hmem).trans
    (convertB_eq b2 hb2 qs tg table hmem).symm

/-- Witness for C7: batch sizes 1 and 2 agree on a two-observation run
over the three-node example. -/
theorem batch_size_invariance_witness :
    ((0 < 1 ∧ 0 < 2) ∧ ∀ r ∈ table3, r.node_id ∈ tg3.nodes) ∧
      convertB 1 [4, 6] tg3 table3 = convertB 2 [4, 6] tg3 table3 :=
  ⟨⟨⟨Nat.one_pos, Nat.zero_lt_two⟩, by with_unfolding_all decide⟩,
   batch_size_invariance 1 2 Nat.one_pos Nat.zero_lt_two [4, 6] tg3 table3
     (by with_unfolding_all decide)⟩

/-- Claim C9: `batch_distance` never mutates the shared input track
graph: it works on a copy, and each `get_distance2` call inserts the
transient anchor `'a'` only on that copy and removes it again, so after
processing a whole batch the working copy still has exactly the nodes,
edges and weights of the caller's graph — which, being untouched, equals
its own copy. -/
theorem batch_distance_preserves_graph (tg : TrackGraph) (obs : List SetupRow)
    (ids : List ℕ)
    (hmem : ∀ o ∈ obs, NodeId.node o.left_node_id ∈ (injectGraph tg).nodes ∧
      NodeId.node o.right_node_id ∈ (injectGraph tg).nodes) :
    (batch_distance (injectGraph tg) obs ids).2 = injectGraph tg := by
  rw [batch_distance_eq (injectGraph tg) (anchorFree_inject tg) ids obs hmem]

/-- Witness for C9 on the three-node example with one observation. -/
theorem batch_distance_preserves_graph_witness :
    (∀ o ∈ [(⟨0, 1, 5, 5⟩ : SetupRow)],
        NodeId.node o.left_node_id ∈ (injectGraph tg3).nodes ∧
          NodeId.node o.right_node_id ∈ (injectGraph tg3).nodes) ∧
      (batch_distance (injectGraph tg3) [⟨0, 1, 5, 5⟩] [1]).2 = injectGraph tg3 :=
  ⟨by with_unfolding_all decide,
   batch_distance_preserves_graph tg3 [⟨0, 1, 5, 5⟩] [1]
     (by with_unfolding_all decide)⟩

end Replay
